import Mathlib

/-!
Verification of the protocol/session layer of rpi-keyboard-config
(`src/RPiKeyboardConfig/keyboard.py`), shallowly embedded in Lean 4.

Bytes are modelled as `Nat` (values < 256 where it matters), frames as
`List Nat`, the HID transport as an explicit stream of response frames
indexed by read order, and device state (LED store) as functions.
Python exceptions are modelled with `Option` / explicit result types.
-/

namespace RPiKeyboard

/-- A matrix position `(row, col)`. -/
abbrev Pos := Nat × Nat

/-- An HSV colour triple `(hue, saturation, value)`. -/
abbrev Colour := Nat × Nat × Nat

/-- `MSG_LEN = 32` from keyboard.py. -/
def MSG_LEN : Nat := 32

/-! ## Report codec (`_send_command`, lines 354-376, and the payload
construction of `_send_check_command`, lines 389-393) -/

/-- The payload built by `_send_check_command`: the command byte, then the
optional subcommand byte, then the argument bytes. -/
def buildPayload (cmd : Nat) (subcmd : Option Nat) (data : List Nat) : List Nat :=
  cmd :: (match subcmd with
    | none => data
    | some s => s :: data)

/-- The frame written by `_send_command`:
`struct.pack` of a zero report-id byte, the payload, and zero padding up to
`MSG_LEN` bytes of payload.  When the payload exceeds `MSG_LEN` bytes the
pad count is negative and `struct.pack` raises before anything is written;
this is the `none` case. -/
def encodeFrame (payload : List Nat) : Option (List Nat) :=
  if payload.length ≤ MSG_LEN then
    some (0 :: (payload ++ List.replicate (MSG_LEN - payload.length) 0))
  else
    none

theorem getD_replicate_zero (r k : Nat) :
    (List.replicate r (0 : Nat)).getD k 0 = 0 := by
  rcases Nat.lt_or_ge k r with h | h
  · rw [List.getD_eq_getElem _ _ (by simpa using h)]
    simp
  · rw [List.getD_eq_default]
    simpa using h

theorem frame_getD_succ_lt (payload : List Nat) (i : Nat)
    (h : i < payload.length) :
    (0 :: (payload ++ List.replicate (MSG_LEN - payload.length) 0)).getD
      (i + 1) 0 = payload.getD i 0 := by
  rw [List.getD_cons_succ, List.getD_append _ _ _ _ h]

theorem frame_getD_succ_ge (payload : List Nat) (i : Nat)
    (h : payload.length ≤ i) :
    (0 :: (payload ++ List.replicate (MSG_LEN - payload.length) 0)).getD
      (i + 1) 0 = 0 := by
  rw [List.getD_cons_succ, List.getD_append_right _ _ _ _ h,
    getD_replicate_zero]

/-- C2: for every command payload of length at most 32 bytes the emitted frame
is exactly 33 bytes: byte 0 is the report id 0x00, then the opcode, then the
optional subopcode, then the argument bytes, and every remaining byte is zero;
a payload longer than 32 bytes makes the encoder fail and nothing is written. -/
theorem frame_layout_C2 (cmd : Nat) (subcmd : Option Nat) (data : List Nat) :
    ((buildPayload cmd subcmd data).length ≤ 32 →
      ∃ f, encodeFrame (buildPayload cmd subcmd data) = some f ∧
        f.length = 33 ∧
        f.getD 0 0 = 0 ∧
        f.getD 1 0 = cmd ∧
        (∀ s, subcmd = some s → f.getD 2 0 = s) ∧
        (∀ i, i < data.length →
          f.getD ((if subcmd.isSome then 3 else 2) + i) 0 = data.getD i 0) ∧
        (∀ i, (buildPayload cmd subcmd data).length + 1 ≤ i → i < 33 →
          f.getD i 0 = 0)) ∧
    (32 < (buildPayload cmd subcmd data).length →
      encodeFrame (buildPayload cmd subcmd data) = none) := by
  constructor
  · intro h
    refine ⟨0 :: (buildPayload cmd subcmd data ++
        List.replicate (MSG_LEN - (buildPayload cmd subcmd data).length) 0),
      by simp [encodeFrame, MSG_LEN, h], ?_, rfl, ?_, ?_, ?_, ?_⟩
    · simp [MSG_LEN]
      omega
    · have h1 : 0 < (buildPayload cmd subcmd data).length := by
        simp [buildPayload]
      have := frame_getD_succ_lt (buildPayload cmd subcmd data) 0 h1
      simpa [buildPayload] using this
    · intro s hs
      subst hs
      have h1 : 1 < (buildPayload cmd (some s) data).length := by
        simp [buildPayload]
      have := frame_getD_succ_lt (buildPayload cmd (some s) data) 1 h1
      simpa [buildPayload] using this
    · intro i hi
      cases subcmd with
      | none =>
        have h1 : i + 1 < (buildPayload cmd none data).length := by
          simp [buildPayload]; omega
        have := frame_getD_succ_lt (buildPayload cmd none data) (i + 1) h1
        rw [show (if (none : Option Nat).isSome = true then 3 else 2) + i =
          (i + 1) + 1 by simp; omega]
        simpa [buildPayload] using this
      | some s =>
        have h1 : i + 2 < (buildPayload cmd (some s) data).length := by
          simp [buildPayload]; omega
        have := frame_getD_succ_lt (buildPayload cmd (some s) data) (i + 2) h1
        rw [show (if (some s : Option Nat).isSome = true then 3 else 2) + i =
          (i + 2) + 1 by simp; omega]
        simpa [buildPayload] using this
    · intro i h1 h2
      rcases Nat.exists_eq_add_of_le h1 with ⟨j, hj⟩
      subst hj
      rw [show (buildPayload cmd subcmd data).length + 1 + j =
        ((buildPayload cmd subcmd data).length + j) + 1 by omega]
      exact frame_getD_succ_ge _ _ (by omega)
  · intro h
    simp [encodeFrame, MSG_LEN]
    omega

/-- C2 witness: a concrete 5-byte command payload (opcode 7, subopcode 0x42,
three argument bytes) encodes to a 33-byte zero-padded frame. -/
theorem frame_layout_C2_witness :
    ∃ f, encodeFrame (buildPayload 7 (some 0x42) [1, 2, 3]) = some f ∧
      f.length = 33 ∧
      f.getD 0 0 = 0 ∧
      f.getD 1 0 = 7 ∧
      (∀ s, (some 0x42 : Option Nat) = some s → f.getD 2 0 = s) ∧
      (∀ i, i < ([1, 2, 3] : List Nat).length →
        f.getD ((if (some 0x42 : Option Nat).isSome then 3 else 2) + i) 0 =
          ([1, 2, 3] : List Nat).getD i 0) ∧
      (∀ i, (buildPayload 7 (some 0x42) [1, 2, 3]).length + 1 ≤ i → i < 33 →
        f.getD i 0 = 0) :=
  (frame_layout_C2 7 (some 0x42) [1, 2, 3]).1 (by decide)

/-! ## Command engine (`_send_check_command`, lines 378-411)

The transport is modelled as a stream `responses : Nat → List Nat` giving the
frame returned by the k-th read (read 0 answers the first send; each retry
re-sends the identical payload and performs the next read). -/

/-- Result of the checked exchange: either the accepted raw frame, or the
`KeyboardNotCompatibleError` raised after the retry bound, carrying the last
raw frame read. -/
inductive CheckResult where
  | ok (raw : List Nat)
  | protocolError (raw : List Nat)
  deriving DecidableEq, Repr

/-- The retry loop of `_send_check_command` (lines 400-410).  On a mismatch it
re-sends, reads the next response and - exactly as the source does - unpacks
BOTH of the first two bytes, so `rsubcmd` is always `some` byte from the
second read onwards, even when the request had no subcommand.  The source
raises once its counter `flush_count` exceeds `flush_limit = 5`, i.e. after
the 6th re-read; `budget` counts the re-reads still allowed before that
(`budget = flush_limit - flush_count`), so recursion is structural. -/
def checkLoop (cmd : Nat) (subcmd : Option Nat) (responses : Nat → List Nat)
    (budget : Nat) (raw : List Nat) (rcmd : Nat) (rsubcmd : Option Nat)
    (idx : Nat) : CheckResult :=
  if rcmd = cmd ∧ rsubcmd = subcmd then
    .ok raw
  else
    let raw' := responses idx
    match budget with
    | 0 => .protocolError raw'
    | b + 1 =>
      checkLoop cmd subcmd responses b raw' (raw'.getD 0 0)
        (some (raw'.getD 1 0)) (idx + 1)

/-- `_send_check_command`: first read, header decode (one byte when there is
no subcommand, two bytes otherwise), then the retry loop with the full
retry budget of 5 recoverable re-reads. -/
def sendCheckCommand (cmd : Nat) (subcmd : Option Nat)
    (responses : Nat → List Nat) : CheckResult :=
  let raw0 := responses 0
  let rcmd0 := raw0.getD 0 0
  let rsubcmd0 : Option Nat :=
    match subcmd with
    | none => none
    | some _ => some (raw0.getD 1 0)
  checkLoop cmd subcmd responses 5 raw0 rcmd0 rsubcmd0 1

/-- A response stream whose first frame echoes the wrong opcode and whose
every later frame echoes the request `(0x06, no subcommand)` correctly. -/
def oneBadThenGood : Nat → List Nat :=
  fun k => if k = 0 then List.replicate 32 0xAA else 0x06 :: List.replicate 31 0

/-- A response stream whose first frame echoes the wrong opcode and whose
every later frame echoes the request `(0xFC, subcommand 0x01)` correctly. -/
def oneBadThenGoodSub : Nat → List Nat :=
  fun k => if k = 0 then List.replicate 32 0xAA
           else 0xFC :: 0x01 :: List.replicate 30 0

/-- C1 (code bug): for a command WITHOUT a subcommand byte, a single
mismatched response followed by perfectly matching responses still ends in
the fatal protocol-unresponsive error, because the retry loop unpacks a
subcommand byte from every retry response and compares it against the absent
expected subcommand, which can never match; the identical scenario WITH a
subcommand byte succeeds on the first retry as the claim describes. -/
theorem send_check_retry_C1 :
    sendCheckCommand 0x06 none oneBadThenGood =
      .protocolError (0x06 :: List.replicate 31 0) ∧
    sendCheckCommand 0xFC (some 0x01) oneBadThenGoodSub =
      .ok (0xFC :: 0x01 :: List.replicate 30 0) := by
  decide

/-! ## Supported-effects enumeration (`get_supported_effects`, lines 487-506)

The device is modelled as `pages : Nat → List Nat`, giving the 15 effect ids
of the response page for a query carrying the id cursor `max_effect`.  The
`while max_effect < 0xFFFF` loop is given explicit fuel; `none` models a run
that has not finished within the fuel. -/

/-- The inner `for effect in effects_data` loop of `get_supported_effects`:
returns (sentinel-found, accumulated effects, updated `max_effect`). -/
def processPage : List Nat → List Nat → Nat → Bool × List Nat × Nat
  | [], effects, maxE => (false, effects, maxE)
  | e :: rest, effects, maxE =>
    if e = 0xFFFF then (true, effects, maxE)
    else processPage rest (effects ++ [e]) e

/-- The `while max_effect < 0xFFFF` loop of `get_supported_effects`. -/
def getEffectsAux (pages : Nat → List Nat) :
    Nat → Nat → List Nat → Option (List Nat)
  | 0, _, _ => none
  | fuel + 1, maxE, effects =>
    if maxE < 0xFFFF then
      match processPage (pages maxE) effects maxE with
      | (true, effs, _) => some effs
      | (false, effs, maxE') => getEffectsAux pages fuel maxE' effs
    else
      some effects

/-- `get_supported_effects`: effects start as `[off, skip]`, the cursor at 0. -/
def getSupportedEffectsFuel (pages : Nat → List Nat) (fuel : Nat) :
    Option (List Nat) :=
  getEffectsAux pages fuel 0 [0x0000, 0xFFFF]

/-- The enumeration terminates on the page stream `pages` if some amount of
fuel suffices. -/
def EffectsEnumTerminates (pages : Nat → List Nat) : Prop :=
  ∃ fuel, (getSupportedEffectsFuel pages fuel).isSome

theorem processPage_zero_page (effs : List Nat) :
    processPage (List.replicate 15 0) effs 0 =
      (false, effs ++ List.replicate 15 0, 0) := by
  simp [processPage, List.replicate]

theorem getEffectsAux_zero_pages (fuel : Nat) :
    ∀ effs, getEffectsAux (fun _ => List.replicate 15 0) fuel 0 effs = none := by
  induction fuel with
  | zero => intro effs; rfl
  | succ f ih =>
    intro effs
    rw [getEffectsAux]
    simp only [processPage_zero_page]
    simpa using ih (effs ++ List.replicate 15 0)

/-- C7 counterexample: a device that keeps answering all-zero pages (no
sentinel, cursor never advances) makes `get_supported_effects` loop forever:
no amount of fuel completes the run, refuting the claim that the walk
terminates even when no page contains the sentinel. -/
theorem get_supported_effects_C7_counterexample :
    ¬ EffectsEnumTerminates (fun _ => List.replicate 15 0) := by
  rintro ⟨fuel, h⟩
  rw [getSupportedEffectsFuel, getEffectsAux_zero_pages] at h
  simp at h

/-- The ids received before the first 0xFFFF sentinel, stated from the
claim's words over the page stream alone: read the page for the current
cursor; a page containing the sentinel contributes its ids before the
sentinel and ends the walk; a sentinel-free page contributes all its ids and
the walk continues at that page's last id; the walk also ends (contributing
nothing more) once the cursor reaches 0xFFFF.  `none` when the walk outlives
the fuel, in step with `getEffectsAux`. -/
def receivedIds (pages : Nat → List Nat) : Nat → Nat → Option (List Nat)
  | 0, _ => none
  | fuel + 1, maxE =>
    if maxE < 0xFFFF then
      if 0xFFFF ∈ pages maxE then
        some ((pages maxE).takeWhile (fun e => e ≠ 0xFFFF))
      else
        match receivedIds pages fuel ((pages maxE).getLastD maxE) with
        | none => none
        | some rest => some (pages maxE ++ rest)
    else
      some []

/-- The cursors at which `get_supported_effects` actually queries a page:
the walk starts at 0, and continues past a queried page only when that page
is sentinel-free, moving to the page's last id. -/
inductive ReachableCursor (pages : Nat → List Nat) : Nat → Prop
  | start : ReachableCursor pages 0
  | step (q : Nat) : ReachableCursor pages q → q < 0xFFFF →
      0xFFFF ∉ pages q → ReachableCursor pages ((pages q).getLastD q)

theorem processPage_sentinel (p : List Nat) (hs : 0xFFFF ∈ p) :
    ∀ effs maxE, (processPage p effs maxE).1 = true ∧
      (processPage p effs maxE).2.1 =
        effs ++ p.takeWhile (fun e => e ≠ 0xFFFF) := by
  induction p with
  | nil => simp at hs
  | cons e rest ih =>
    intro effs maxE
    by_cases he : e = 0xFFFF
    · subst he
      simp [processPage, List.takeWhile_cons]
    · have hs2 : 0xFFFF ∈ rest := by
        rcases List.mem_cons.mp hs with h | h
        · exact absurd h.symm he
        · exact h
      rw [processPage, if_neg he]
      refine ⟨(ih hs2 (effs ++ [e]) e).1, ?_⟩
      rw [(ih hs2 (effs ++ [e]) e).2]
      simp [List.takeWhile_cons, he]

theorem processPage_no_sentinel (p : List Nat) (hs : 0xFFFF ∉ p) :
    ∀ effs maxE, processPage p effs maxE =
      (false, effs ++ p, p.getLastD maxE) := by
  induction p with
  | nil =>
    intro effs maxE
    simp [processPage, List.getLastD_nil]
  | cons e rest ih =>
    intro effs maxE
    have he : e ≠ 0xFFFF := fun h => hs (h ▸ List.mem_cons_self e rest)
    have hs2 : 0xFFFF ∉ rest := fun h => hs (List.mem_cons_of_mem e h)
    rw [processPage, if_neg he, ih hs2 (effs ++ [e]) e, List.getLastD_cons]
    simp

theorem getEffectsAux_eq_receivedIds (pages : Nat → List Nat) :
    ∀ fuel maxE effects,
      getEffectsAux pages fuel maxE effects =
        (receivedIds pages fuel maxE).map (fun r => effects ++ r) := by
  intro fuel
  induction fuel with
  | zero =>
    intro maxE effects
    rfl
  | succ f ih =>
    intro maxE effects
    rw [getEffectsAux, receivedIds]
    by_cases hm : maxE < 0xFFFF
    · rw [if_pos hm, if_pos hm]
      by_cases hs : 0xFFFF ∈ pages maxE
      · rw [if_pos hs]
        have hps := processPage_sentinel (pages maxE) hs effects maxE
        rcases hq : processPage (pages maxE) effects maxE with ⟨found, effs2, maxE2⟩
        rw [hq] at hps
        obtain ⟨h1, h2⟩ := hps
        simp only at h1 h2
        subst h1
        rw [h2]
        simp
      · rw [if_neg hs]
        rw [processPage_no_sentinel (pages maxE) hs effects maxE]
        simp only
        rw [ih ((pages maxE).getLastD maxE) (effects ++ pages maxE)]
        cases hr : receivedIds pages f ((pages maxE).getLastD maxE) with
        | none => simp
        | some rest => simp [List.append_assoc]
    · rw [if_neg hm, if_neg hm]
      simp

theorem getEffectsAux_isSome_reachable (pages : Nat → List Nat)
    (hprog : ∀ q, ReachableCursor pages q → q < 0xFFFF →
      0xFFFF ∈ pages q ∨ q < (pages q).getLastD q) :
    ∀ fuel maxE effs, ReachableCursor pages maxE → 0xFFFF - maxE < fuel →
      (getEffectsAux pages fuel maxE effs).isSome := by
  intro fuel
  induction fuel with
  | zero =>
    intro maxE effs hreach h
    omega
  | succ f ih =>
    intro maxE effs hreach h
    rw [getEffectsAux]
    by_cases hm : maxE < 0xFFFF
    · rw [if_pos hm]
      by_cases hs : 0xFFFF ∈ pages maxE
      · have hps := processPage_sentinel (pages maxE) hs effs maxE
        rcases hq : processPage (pages maxE) effs maxE with ⟨found, effs2, maxE2⟩
        rw [hq] at hps
        obtain ⟨h1, _⟩ := hps
        simp only at h1
        subst h1
        simp
      · rw [processPage_no_sentinel (pages maxE) hs effs maxE]
        simp only
        rcases hprog maxE hreach hm with hsent | hlt
        · exact absurd hsent hs
        · exact ih ((pages maxE).getLastD maxE) (effs ++ pages maxE)
            (ReachableCursor.step maxE hreach hm hs) (by omega)
    · rw [if_neg hm]
      simp

/-- C7 amended: every terminating run of the enumeration returns off (0) and
skip (0xFFFF) followed by EXACTLY the ids received before the first 0xFFFF
sentinel - for every fuel, the run equals the received-ids walk over the
page stream, so it also terminates exactly when that walk does - and the run
terminates (0x10000 loop iterations suffice) whenever every QUERIED page,
i.e. every page served at a cursor the walk reaches below 0xFFFF, either
contains the sentinel or moves the id cursor strictly forward.
(Unconditional termination is refuted by the all-zero page stream.) -/
theorem get_supported_effects_C7_amended (pages : Nat → List Nat) :
    (∀ fuel, getSupportedEffectsFuel pages fuel =
      (receivedIds pages fuel 0).map (fun r => [0x0000, 0xFFFF] ++ r)) ∧
    ((∀ q, ReachableCursor pages q → q < 0xFFFF →
        0xFFFF ∈ pages q ∨ q < (pages q).getLastD q) →
      (getSupportedEffectsFuel pages 0x10000).isSome) := by
  constructor
  · intro fuel
    rw [getSupportedEffectsFuel, getEffectsAux_eq_receivedIds]
  · intro hprog
    exact getEffectsAux_isSome_reachable pages hprog 0x10000 0 _
      ReachableCursor.start (by norm_num)

/-- C7 witness: a device whose every page is `[3, 7, 0xFFFF, 0, ...]`
satisfies both parts - the run coincides with the received-ids walk at any
concrete fuel, and the progress hypothesis holds because every page carries
the sentinel, so the run completes. -/
theorem get_supported_effects_C7_witness :
    getSupportedEffectsFuel
        (fun _ => [3, 7, 0xFFFF] ++ List.replicate 12 0) 0x10000 =
      (receivedIds (fun _ => [3, 7, 0xFFFF] ++ List.replicate 12 0)
        0x10000 0).map (fun r => [0x0000, 0xFFFF] ++ r) ∧
    (getSupportedEffectsFuel
        (fun _ => [3, 7, 0xFFFF] ++ List.replicate 12 0) 0x10000).isSome :=
  ⟨(get_supported_effects_C7_amended
      (fun _ => [3, 7, 0xFFFF] ++ List.replicate 12 0)).1 0x10000,
   (get_supported_effects_C7_amended
      (fun _ => [3, 7, 0xFFFF] ++ List.replicate 12 0)).2
      (fun q hq hlt => Or.inl (by decide))⟩

/-! ## Bulk LED push/pull (`send_leds` lines 646-687, `set_led_by_idx`
lines 717-724, `get_current_direct_leds` lines 781-799)

A directory is the list of the LEDs' colours in index order; the device LED
store is a function from LED index to colour. -/

/-- One `direct_fastset` packet as built by `send_leds`: the little-endian
offset word, the count byte, and the `count*3` colour bytes (here kept as the
list of colour triples; `packetBytes` flattens them). -/
structure Packet where
  offset : Nat
  count : Nat
  colours : List Colour
  deriving DecidableEq, Repr

/-- The colour-byte block of a packet: hue, saturation, value of each LED in
index order. -/
def packetBytes (p : Packet) : List Nat :=
  p.colours.foldr (fun c acc => c.1 :: c.2.1 :: c.2.2 :: acc) []

/-- The `while sent < len(leds)` loop of `send_leds`: each iteration takes at
most 9 LEDs starting at `sent` and emits one packet. -/
def sendLedsAux (l : List Colour) (sent : Nat) : List Packet :=
  match l with
  | [] => []
  | x :: xs =>
    ⟨sent, ((x :: xs).take 9).length, (x :: xs).take 9⟩ ::
      sendLedsAux ((x :: xs).drop 9) (sent + ((x :: xs).take 9).length)
  termination_by l.length
  decreasing_by simp; omega

/-- `send_leds` on the RGB-capable model: packetize the whole directory
starting at offset 0. -/
def sendLeds (l : List Colour) : List Packet :=
  sendLedsAux l 0

/-- `set_led_by_idx`: overwrite one directory entry. -/
def setLedByIdx (dir : List Colour) (idx : Nat) (c : Colour) : List Colour :=
  dir.set idx c

/-- A device that stores what `direct_fastset` sends: one packet overwrites
the store at `offset .. offset+count-1` with the packet's colours. -/
def applyPacket (store : Nat → Colour) (p : Packet) : Nat → Colour :=
  fun j =>
    if p.offset ≤ j ∧ j < p.offset + p.colours.length then
      p.colours.getD (j - p.offset) (0, 0, 0)
    else store j

/-- Apply a packet sequence in transmission order. -/
def applyPackets (store : Nat → Colour) (ps : List Packet) : Nat → Colour :=
  ps.foldl applyPacket store

/-- The `while retrieved < len(leds)` loop of `get_current_direct_leds` /
`get_saved_direct_leds`: each response carries the colours of the 9 LEDs
starting at `retrieved` (read from the device store), and only indices below
the directory length are overwritten in the result. -/
def readBackAux (store : Nat → Colour) (n retrieved : Nat) : List Colour :=
  if retrieved < n then
    (List.range (min 9 (n - retrieved))).map (fun i => store (retrieved + i))
      ++ readBackAux store n (retrieved + 9)
  else []
  termination_by n - retrieved
  decreasing_by omega

/-- The directory of colours produced by `get_current_direct_leds` on a
device whose LED store is `store`, for a directory of `n` LEDs. -/
def getCurrentDirectLeds (store : Nat → Colour) (n : Nat) : List Colour :=
  readBackAux store n 0

theorem sendLedsAux_length (l : List Colour) (sent : Nat) :
    (sendLedsAux l sent).length = (l.length + 8) / 9 := by
  induction l, sent using sendLedsAux.induct with
  | case1 sent => simp [sendLedsAux]
  | case2 sent x xs ih =>
    rw [sendLedsAux]
    simp only [List.length_cons, List.length_take, List.length_drop] at ih ⊢
    omega

theorem sendLedsAux_getElem (l : List Colour) (sent : Nat) :
    ∀ k, 9 * k < l.length →
      (sendLedsAux l sent)[k]? =
        some ⟨sent + 9 * k, min 9 (l.length - 9 * k), (l.drop (9 * k)).take 9⟩ := by
  induction l, sent using sendLedsAux.induct with
  | case1 sent => intro k hk; simp at hk
  | case2 sent x xs ih =>
    intro k hk
    rw [sendLedsAux]
    cases k with
    | zero =>
      simp only [List.getElem?_cons_zero, Nat.mul_zero, Nat.add_zero,
        List.drop_zero, Option.some.injEq, Packet.mk.injEq, List.length_take,
        List.length_cons]
      refine ⟨trivial, ?_, trivial⟩
      omega
    | succ k =>
      simp only [List.getElem?_cons_succ]
      have hlen : 9 * k < (List.drop 9 (x :: xs)).length := by
        simp only [List.length_drop, List.length_cons] at hk ⊢
        omega
      rw [ih k hlen]
      simp only [List.length_cons] at hk
      have hd : (List.drop 9 (x :: xs)).length = xs.length + 1 - 9 := by
        simp
      have hm1 : min 9 ((x :: xs).length) = 9 :=
        Nat.min_eq_left (by simp only [List.length_cons]; omega)
      have hm2 : xs.length + 1 - 9 - 9 * k = xs.length + 1 - 9 * (k + 1) := by
        omega
      simp only [Option.some.injEq, Packet.mk.injEq, List.length_take,
        List.drop_drop, List.length_cons, hd, hm1, hm2]
      refine ⟨by omega, trivial, ?_⟩
      congr 2
      omega

theorem sendLedsAux_colours (l : List Colour) (sent : Nat) :
    (sendLedsAux l sent).foldr (fun p acc => p.colours ++ acc) [] = l := by
  induction l, sent using sendLedsAux.induct with
  | case1 sent => simp [sendLedsAux]
  | case2 sent x xs ih =>
    rw [sendLedsAux]
    simp only [List.foldr_cons, ih, List.take_append_drop]

theorem packetBytes_length (p : Packet) :
    (packetBytes p).length = 3 * p.colours.length := by
  unfold packetBytes
  generalize p.colours = cs
  induction cs with
  | nil => simp
  | cons c rest ih => simp [ih]; omega

theorem sendLedsAux_count (l : List Colour) (sent : Nat) :
    ∀ p ∈ sendLedsAux l sent, p.count = p.colours.length := by
  induction l, sent using sendLedsAux.induct with
  | case1 sent => simp [sendLedsAux]
  | case2 sent x xs ih =>
    intro p hp
    rw [sendLedsAux] at hp
    rcases List.mem_cons.mp hp with h | h
    · subst h; rfl
    · exact ih p h

/-- C5: `send_leds` cuts a directory of `n` colours into exactly `⌈n/9⌉`
packets; the k-th packet carries offset `9*k`, count `min 9 (n - 9*k)`, and
the colours of LEDs `9*k ..` in index order (its byte block is `count*3`
bytes); concatenating the packets' colour blocks in order yields the whole
directory, so every LED is transmitted exactly once. -/
theorem send_leds_packets_C5 (l : List Colour) :
    (sendLeds l).length = (l.length + 8) / 9 ∧
    (∀ k, 9 * k < l.length →
      (sendLeds l)[k]? =
        some ⟨9 * k, min 9 (l.length - 9 * k), (l.drop (9 * k)).take 9⟩) ∧
    (∀ p ∈ sendLeds l, p.count = p.colours.length ∧
      (packetBytes p).length = 3 * p.count) ∧
    (sendLeds l).foldr (fun p acc => p.colours ++ acc) [] = l := by
  refine ⟨sendLedsAux_length l 0, ?_, ?_, sendLedsAux_colours l 0⟩
  · intro k hk
    simpa using sendLedsAux_getElem l 0 k hk
  · intro p hp
    have hc := sendLedsAux_count l 0 p hp
    refine ⟨hc, ?_⟩
    rw [packetBytes_length, hc]

theorem applyPackets_nil (store : Nat → Colour) :
    applyPackets store [] = store := rfl

theorem applyPackets_cons (store : Nat → Colour) (p : Packet)
    (ps : List Packet) :
    applyPackets store (p :: ps) = applyPackets (applyPacket store p) ps := rfl

theorem getD_drop_colour (l : List Colour) (n i : Nat) :
    (l.drop n).getD i (0, 0, 0) = l.getD (n + i) (0, 0, 0) := by
  simp [List.getElem?_drop]

theorem getD_take_colour (l : List Colour) (n i : Nat) (h : i < n) :
    (l.take n).getD i (0, 0, 0) = l.getD i (0, 0, 0) := by
  simp [List.getElem?_take_of_lt h]

theorem applyPackets_sendLedsAux (l : List Colour) (sent : Nat) :
    ∀ (store : Nat → Colour) (j : Nat),
      applyPackets store (sendLedsAux l sent) j =
        if sent ≤ j ∧ j < sent + l.length then l.getD (j - sent) (0, 0, 0)
        else store j := by
  induction l, sent using sendLedsAux.induct with
  | case1 sent =>
    intro store j
    rw [sendLedsAux, applyPackets_nil, if_neg]
    rintro ⟨h1, h2⟩
    simp at h2
    omega
  | case2 sent x xs ih =>
    intro store j
    rw [sendLedsAux, applyPackets_cons, ih]
    have hc : ((x :: xs).take 9).length = min 9 (x :: xs).length :=
      List.length_take ..
    have hd2 : ((x :: xs).drop 9).length = (x :: xs).length - 9 :=
      List.length_drop ..
    by_cases h2 : sent + ((x :: xs).take 9).length ≤ j ∧
        j < sent + ((x :: xs).take 9).length + ((x :: xs).drop 9).length
    · rw [if_pos h2]
      have h9 : ((x :: xs).take 9).length = 9 := by
        rw [hc]
        rcases Nat.le_total 9 (x :: xs).length with h | h
        · exact Nat.min_eq_left h
        · exfalso
          omega
      rw [if_pos (by constructor <;> omega)]
      rw [getD_drop_colour]
      congr 1
      omega
    · rw [if_neg h2]
      simp only [applyPacket]
      by_cases h1 : sent ≤ j ∧ j < sent + ((x :: xs).take 9).length
      · rw [if_pos h1, if_pos (by constructor <;> omega)]
        exact getD_take_colour _ _ _ (by omega)
      · rw [if_neg h1, if_neg (by
          intro hcon
          rcases hcon with ⟨ha, hb⟩
          apply h1
          constructor
          · exact ha
          · by_contra hno
            exact h2 ⟨by omega, by omega⟩)]

theorem range_map_store (store : Nat → Colour) (r k : Nat) :
    (List.range k).map (fun i => store (r + i)) =
      (List.range' r k).map store := by
  rw [List.range'_eq_map_range, List.map_map]
  rfl

theorem readBackAux_eq (store : Nat → Colour) (n : Nat) :
    ∀ retrieved, readBackAux store n retrieved =
      (List.range' retrieved (n - retrieved)).map store := by
  have key : ∀ m retrieved, n - retrieved = m →
      readBackAux store n retrieved =
        (List.range' retrieved (n - retrieved)).map store := by
    intro m
    induction m using Nat.strong_induction_on with
    | _ m ihm =>
    intro retrieved hm
    rw [readBackAux]
    by_cases h : retrieved < n
    · rw [if_pos h]
      rw [ihm (n - (retrieved + 9)) (by omega) (retrieved + 9) rfl]
      rw [range_map_store]
      rw [← List.map_append]
      congr 1
      rcases Nat.le_total (n - retrieved) 9 with hle | hle
      · have hmin : min 9 (n - retrieved) = n - retrieved :=
          Nat.min_eq_right hle
        have h0 : n - (retrieved + 9) = 0 := by omega
        rw [hmin, h0]
        simp
      · have hmin : min 9 (n - retrieved) = 9 := Nat.min_eq_left hle
        rw [hmin]
        have hap := List.range'_append_1 retrieved 9 (n - (retrieved + 9))
        rw [hap]
        congr 1
        omega
    · rw [if_neg h]
      have h0 : n - retrieved = 0 := by omega
      rw [h0]
      simp
  intro retrieved
  exact key (n - retrieved) retrieved rfl

/-- C6: on the RGB-capable model, for every directory, every valid LED index
and every colour, setting the LED, flushing with `send_leds` to a device that
stores what `direct_fastset` sends, and reading back with
`get_current_direct_leds` yields a directory whose entry at that index is the
colour that was set. -/
theorem led_roundtrip_C6 (dir : List Colour) (store0 : Nat → Colour)
    (i : Nat) (c : Colour) (hi : i < dir.length) :
    (getCurrentDirectLeds
        (applyPackets store0 (sendLeds (setLedByIdx dir i c)))
        dir.length).getD i (0, 0, 0) = c := by
  rw [getCurrentDirectLeds, readBackAux_eq]
  have hlen : i < ((List.range' 0 (dir.length - 0)).map
      (applyPackets store0 (sendLeds (setLedByIdx dir i c)))).length := by
    simpa using hi
  rw [List.getD_eq_getElem _ _ hlen]
  rw [List.getElem_map]
  rw [List.getElem_range']
  rw [sendLeds, applyPackets_sendLedsAux]
  rw [if_pos (by
    constructor
    · omega
    · simp only [setLedByIdx, List.length_set]
      omega)]
  have hi2 : 0 + 1 * i - 0 < (setLedByIdx dir i c).length := by
    simp only [setLedByIdx, List.length_set]
    omega
  rw [List.getD_eq_getElem _ _ hi2]
  have hidx : 0 + 1 * i - 0 = i := by omega
  simp only [setLedByIdx, hidx]
  exact List.getElem_set_self (by simpa using hi)

/-- C6 witness: the round trip at the packet-boundary indices 0, 8 and 9 of a
10-LED directory (the last index starts the second `direct_fastset` packet),
with a device store that starts all-dark. -/
theorem led_roundtrip_C6_witness :
    (getCurrentDirectLeds
        (applyPackets (fun _ => (0, 0, 0))
          (sendLeds (setLedByIdx (List.replicate 10 ((7, 7, 7) : Colour))
            0 (1, 2, 3))))
        (List.replicate 10 ((7, 7, 7) : Colour)).length).getD 0 (0, 0, 0) =
      (1, 2, 3) ∧
    (getCurrentDirectLeds
        (applyPackets (fun _ => (0, 0, 0))
          (sendLeds (setLedByIdx (List.replicate 10 ((7, 7, 7) : Colour))
            8 (4, 5, 6))))
        (List.replicate 10 ((7, 7, 7) : Colour)).length).getD 8 (0, 0, 0) =
      (4, 5, 6) ∧
    (getCurrentDirectLeds
        (applyPackets (fun _ => (0, 0, 0))
          (sendLeds (setLedByIdx (List.replicate 10 ((7, 7, 7) : Colour))
            9 (8, 9, 10))))
        (List.replicate 10 ((7, 7, 7) : Colour)).length).getD 9 (0, 0, 0) =
      (8, 9, 10) :=
  ⟨led_roundtrip_C6 _ _ 0 (1, 2, 3) (by simp),
   led_roundtrip_C6 _ _ 8 (4, 5, 6) (by simp),
   led_roundtrip_C6 _ _ 9 (8, 9, 10) (by simp)⟩

/-- C5 witness: a 10-colour directory at the concrete instant `k = 1`. -/
theorem send_leds_packets_C5_witness :
    (sendLeds (List.replicate 10 ((1, 2, 3) : Colour))).length =
      ((List.replicate 10 ((1, 2, 3) : Colour)).length + 8) / 9 ∧
    (sendLeds (List.replicate 10 ((1, 2, 3) : Colour)))[1]? =
      some ⟨9 * 1,
        min 9 ((List.replicate 10 ((1, 2, 3) : Colour)).length - 9 * 1),
        ((List.replicate 10 ((1, 2, 3) : Colour)).drop (9 * 1)).take 9⟩ := by
  have h := send_leds_packets_C5 (List.replicate 10 ((1, 2, 3) : Colour))
  exact ⟨h.1, h.2.1 1 (by decide)⟩

/-! ## Aliasing in the bulk pull (`get_current_direct_leds` lines 781-799,
`get_saved_direct_leds` lines 801-819)

Python `LED` objects live on a heap: a session's `_led_map` is a list of
object references and a heap maps each reference to its `.colour`.  The
source starts with `leds = self._led_map.copy()`, which copies only the list
of references - the `LED` objects themselves are shared - and then assigns
`leds[retrieved + i].colour = ...` for every index below the directory
length, i.e. it writes the heap at the shared references.  Both bulk pulls
have the identical loop, so one embedding covers both. -/

/-- The reference list and heap after `get_current_direct_leds` /
`get_saved_direct_leds` on a session whose `_led_map` holds `refs`, with
device store `store`: the returned list is the same reference list, and the
heap is overwritten at `refs[i]` with `store i` for every directory index. -/
def readBackShared (refs : List Nat) (heap : Nat → Colour)
    (store : Nat → Colour) : List Nat × (Nat → Colour) :=
  (refs, fun r => if r ∈ refs then store (refs.indexOf r) else heap r)

/-- The colours of a session's own `_led_map`, read through the heap. -/
def sessionColours (refs : List Nat) (heap : Nat → Colour) : List Colour :=
  refs.map heap

/-- C8 (code bug): the bulk pull mutates the session's own LED directory.
On a one-LED session whose authoritative colour is `(1,2,3)` and whose device
reports `(4,5,6)`, after `get_current_direct_leds()` the session's own
`_led_map` colour list reads `[(4,5,6)]`, not the unchanged `[(1,2,3)]`:
`list.copy()` is shallow, so the "fresh copy" shares the LED objects. -/
theorem get_current_leds_mutates_C8 :
    sessionColours [0]
        (readBackShared [0] (fun _ => (1, 2, 3)) (fun _ => (4, 5, 6))).2 =
      [(4, 5, 6)] ∧
    sessionColours [0] (fun _ => ((1, 2, 3) : Colour)) = [(1, 2, 3)] ∧
    ((4, 5, 6) : Colour) ≠ (1, 2, 3) := by
  refine ⟨?_, rfl, by decide⟩
  rfl

/-! ## Conversion tables (`__init__` lines 196-221, `get_keycode` /
`set_keycode` lines 508-541)

The static tables live in the `switch_matrix` module, which is not part of
the sources here; only its callers are.  The table contents are therefore
left as parameters, and `convert_switch_matrix` is modelled from the spec. -/

/-- The two keyboard models recognised by `_get_hid_interface`. -/
inductive Model where
  | PI500
  | PI500PLUS
  deriving DecidableEq, Repr

/-- The layout variants (country codes). -/
inductive Variant where
  | ISO
  | ANSI
  | JIS
  deriving DecidableEq, Repr

/-- Modelled from the spec: `convert_switch_matrix` of the missing
`switch_matrix` module.  The conversion table and the switch-matrix map are
parallel ordered sequences of positions; a position is converted by looking
up its index in the source table and reading the same index in the target
table ("an optional per-model/variant bijection between logical positions
used by callers and physical positions used on the wire", used positionally
against the ordered Switch Matrix Map).  A position absent from the source
table, or an index beyond the target table, is an error (`none`). -/
def convert_switch_matrix (p : Pos) (src tgt : List Pos) : Option Pos :=
  if p ∈ src then tgt[src.indexOf p]? else none

/-- The conversion-table selection of `__init__` (lines 200-221): the PI500
branch installs `SWITCH_MATRIX_CONVERSION_PI500_ISO` for EVERY country code
(all three branches assign the same table); the PI500PLUS branch selects only
the per-variant switch-matrix map and leaves `conversion_switch_matrix` as
the `None` it was initialised to.  The contents of the ISO conversion table
are the parameter `convPi500Iso`. -/
def initConversion (convPi500Iso : List Pos) (model : Model)
    (variant : Variant) : Option (List Pos) :=
  match model with
  | .PI500 =>
    match variant with
    | .ANSI => some convPi500Iso
    | .JIS => some convPi500Iso
    | .ISO => some convPi500Iso
  | .PI500PLUS => none

/-- The position put on the wire by `get_keycode` / `set_keycode` (lines
518-521 resp. 535-538): the caller's position unchanged when there is no
conversion table or `dont_convert` is set, else the converted position. -/
def keycodeWirePos (conv : Option (List Pos)) (swm : List Pos)
    (dontConvert : Bool) (m : Pos) : Option Pos :=
  match conv, dontConvert with
  | none, _ => some m
  | some _, true => some m
  | some c, false => convert_switch_matrix m c swm

/-- C3 counterexample: with any table contents (here a one-entry stand-in),
the constructed PI500PLUS (ModelB) session has NO conversion table - so it
cannot apply one in either direction - while the PI500 (ModelA) session DOES
hold one: the claim has the two models swapped. -/
theorem conversion_assignment_C3_counterexample :
    initConversion [(0, 0)] Model.PI500PLUS Variant.ISO = none ∧
    initConversion [(0, 0)] Model.PI500 Variant.ISO = some [(0, 0)] := by
  decide

theorem pos_indexOf_spec (l : List Pos) (p : Pos) (hp : p ∈ l) :
    l.indexOf p < l.length ∧ l[l.indexOf p]? = some p := by
  induction l with
  | nil => simp at hp
  | cons a as ih =>
    rw [List.indexOf_cons]
    by_cases h : a = p
    · subst h
      simp
    · have hb : (a == p) = false := by simp [h]
      rw [hb]
      simp only [cond_false]
      have hp2 : p ∈ as := by
        rcases List.mem_cons.mp hp with h1 | h1
        · exact absurd h1.symm h
        · exact h1
      rcases ih hp2 with ⟨h1, h2⟩
      refine ⟨by simpa using Nat.succ_lt_succ h1, by simpa using h2⟩

theorem pos_indexOf_getElem (l : List Pos) (hl : l.Nodup) :
    ∀ i, ∀ h : i < l.length, l.indexOf (l.get ⟨i, h⟩) = i := by
  induction l with
  | nil =>
    intro i h
    simp at h
  | cons a as ih =>
    intro i h
    cases i with
    | zero => simp [List.indexOf_cons]
    | succ i =>
      have h2 : i < as.length := by simpa using h
      simp only [List.get_eq_getElem, List.getElem_cons_succ, List.indexOf_cons]
      have hne : a ≠ as[i] := by
        intro he
        exact (List.nodup_cons.mp hl).1 (he ▸ List.getElem_mem h2)
      have hb : (a == as[i]) = false := by simp [hne]
      rw [hb]
      simp only [cond_false]
      have hih := ih (List.nodup_cons.mp hl).2 i h2
      simp only [List.get_eq_getElem] at hih
      rw [hih]

/-- C3 amended: after session construction, the ModelB (PI500PLUS) session
has no conversion table, so `get_keycode` / `set_keycode` pass the caller's
position to the wire unchanged; the ModelA (PI500) session holds the ISO
conversion table whatever the detected country; and whenever a conversion
table has no duplicates and is at least as long as the switch matrix map,
converting physical-to-logical and back recovers every position of the map. -/
theorem conversion_assignment_C3_amended :
    (∀ conv v, initConversion conv Model.PI500PLUS v = none) ∧
    (∀ conv v swm d m,
      keycodeWirePos (initConversion conv Model.PI500PLUS v) swm d m =
        some m) ∧
    (∀ conv v, initConversion conv Model.PI500 v = some conv) ∧
    (∀ (swm conv : List Pos), conv.Nodup → swm.length ≤ conv.length →
      ∀ p ∈ swm,
        (convert_switch_matrix p swm conv).bind
          (fun q => convert_switch_matrix q conv swm) = some p) := by
  refine ⟨?_, ?_, ?_, ?_⟩
  · intro conv v
    cases v <;> rfl
  · intro conv v swm d m
    cases v <;> rfl
  · intro conv v
    cases v <;> rfl
  · intro swm conv hnd hlen p hp
    rw [convert_switch_matrix, if_pos hp]
    obtain ⟨hi, hget⟩ := pos_indexOf_spec swm p hp
    have hic : swm.indexOf p < conv.length := lt_of_lt_of_le hi hlen
    rw [List.getElem?_eq_getElem hic]
    rw [Option.some_bind]
    rw [convert_switch_matrix, if_pos (List.getElem_mem hic)]
    have hidx := pos_indexOf_getElem conv hnd (swm.indexOf p) hic
    rw [List.get_eq_getElem] at hidx
    rw [hidx]
    exact hget

/-- C3 witness: a concrete two-entry conversion table and map exercising the
ModelB identity path and the round trip. -/
theorem conversion_assignment_C3_witness :
    keycodeWirePos (initConversion [(5, 5), (6, 6)] Model.PI500PLUS
        Variant.ANSI) [(0, 0), (0, 1)] false (0, 1) = some (0, 1) ∧
    (convert_switch_matrix (0, 1) [(0, 0), (0, 1)] [(5, 5), (6, 6)]).bind
      (fun q => convert_switch_matrix q [(5, 5), (6, 6)] [(0, 0), (0, 1)]) =
      some (0, 1) :=
  ⟨(conversion_assignment_C3_amended.2.1 [(5, 5), (6, 6)] Variant.ANSI
      [(0, 0), (0, 1)] false (0, 1)),
   (conversion_assignment_C3_amended.2.2.2 [(0, 0), (0, 1)] [(5, 5), (6, 6)]
      (by decide) (by decide) (0, 1) (by decide))⟩

/-! ## Switch-matrix state decoding (`get_switch_matrix_state`,
lines 950-987)

`struct.unpack` of `>B`/`>H`/`>I` sequences and the hand-rolled 3-byte
branch all read one big-endian word of `rowWidth` bytes per row starting at
byte 2 of the response; the response frame always has its full 32 bytes, so
the embedding requires the full `2 + rows*width` length uniformly (`none`
models the unpack error on short data). -/

/-- `rows`: one past the largest row index of the map (line 956). -/
def rowsOf (m : List Pos) : Nat :=
  (m.map Prod.fst).foldr max 0 + 1

/-- `cols`: one past the largest column index of the map (line 957). -/
def colsOf (m : List Pos) : Nat :=
  (m.map Prod.snd).foldr max 0 + 1

/-- The per-row word width chosen from the column count (lines 960-973). -/
def rowWidth (cols : Nat) : Nat :=
  if cols ≤ 8 then 1 else if cols ≤ 16 then 2 else if cols ≤ 24 then 3 else 4

/-- Big-endian value of a byte sequence. -/
def beVal (bytes : List Nat) : Nat :=
  bytes.foldl (fun a b => a * 256 + b) 0

/-- The big-endian word of row `r`: `rowWidth` bytes starting at byte
`2 + r * rowWidth` of the response. -/
def rowWord (m : List Pos) (raw : List Nat) (r : Nat) : Nat :=
  beVal ((raw.drop (2 + r * rowWidth (colsOf m))).take (rowWidth (colsOf m)))

/-- `get_switch_matrix_state`: a position of the map is reported active iff
bit `col` of its row's word is set; the reported position is the raw pair
when there is no conversion table, else its conversion (lines 975-987). -/
def switchMatrixState (conv : Option (List Pos)) (m : List Pos)
    (raw : List Nat) : Option (List Pos) :=
  if 2 + rowsOf m * rowWidth (colsOf m) ≤ raw.length then
    let active := m.filter (fun s => (rowWord m raw s.1).testBit s.2)
    match conv with
    | none => some active
    | some c => active.mapM (fun s => convert_switch_matrix s m c)
  else none

theorem rowWidth_pos (cols : Nat) : 1 ≤ rowWidth cols := by
  rw [rowWidth]
  split
  · omega
  · split
    · omega
    · split <;> omega

theorem le_foldr_max (l : List Nat) : ∀ a ∈ l, a ≤ l.foldr max 0 := by
  induction l with
  | nil => simp
  | cons x xs ih =>
    intro a ha
    rcases List.mem_cons.mp ha with h | h
    · subst h
      simp only [List.foldr_cons]
      exact le_max_left _ _
    · refine le_trans (ih a h) ?_
      simp only [List.foldr_cons]
      exact le_max_right _ _

theorem beVal_append (L : List Nat) (b : Nat) :
    beVal (L ++ [b]) = beVal L * 256 + b := by
  simp [beVal, List.foldl_append]

theorem testBit_beVal (L : List Nat) :
    ∀ i, (∀ b ∈ L, b < 256) → i < 8 * L.length →
      (beVal L).testBit i =
        (L.getD (L.length - 1 - i / 8) 0).testBit (i % 8) := by
  induction L using List.reverseRecOn with
  | nil =>
    intro i _ hi
    simp at hi
  | append_singleton L b ihL =>
    intro i hL hi
    have hb : b < 256 := hL b (by simp)
    rw [beVal_append]
    rw [show beVal L * 256 + b = 2 ^ 8 * beVal L + b by ring]
    rw [Nat.testBit_mul_pow_two_add (beVal L) (by norm_num; omega) i]
    by_cases hc : i < 8
    · rw [if_pos hc]
      have hdiv : i / 8 = 0 := Nat.div_eq_of_lt hc
      have hlen : (L ++ [b]).length - 1 - i / 8 = L.length := by
        simp [hdiv]
      rw [hlen]
      have hgb : (L ++ [b]).getD L.length 0 = b := by
        rw [List.getD_append_right _ _ _ _ (le_refl _)]
        simp
      rw [hgb, Nat.mod_eq_of_lt hc]
    · rw [if_neg hc]
      have hc8 : 8 ≤ i := by omega
      have hi2 : i - 8 < 8 * L.length := by
        simp only [List.length_append, List.length_singleton] at hi
        omega
      rw [ihL (i - 8) (fun x hx => hL x (by simp [hx])) hi2]
      have hL1 : 1 ≤ L.length := by omega
      have hk : L.length - 1 - (i - 8) / 8 =
          (L ++ [b]).length - 1 - i / 8 := by
        simp only [List.length_append, List.length_singleton]
        omega
      rw [hk]
      rw [← List.getD_append L [b] 0 _ (by
        simp only [List.length_append, List.length_singleton]
        omega)]
      congr 1
      omega

theorem mem_take_bytes {raw : List Nat} (hraw : ∀ b ∈ raw, b < 256)
    (s w : Nat) : ∀ b ∈ (raw.drop s).take w, b < 256 :=
  fun b hb => hraw b (List.mem_of_mem_drop (List.mem_of_mem_take hb))

theorem getD_drop_byte (l : List Nat) (n i : Nat) :
    (l.drop n).getD i 0 = l.getD (n + i) 0 := by
  simp [List.getElem?_drop]

theorem getD_take_byte (l : List Nat) (n i : Nat) (h : i < n) :
    (l.take n).getD i 0 = l.getD i 0 := by
  simp [List.getElem?_take_of_lt h]

/-- C4: for every nonempty switch matrix map and every full-length response
of valid bytes, the decoder succeeds; a position is reported active iff it is
in the map and bit `col` of its row's big-endian word (of the width chosen
from the column count) is set - so nothing outside the map is reported - and
for every in-range bit that word test equals the test of bit `col % 8` of
response byte `2 + row*width + (width - 1 - col/8)`. -/
theorem switch_matrix_state_C4 (m : List Pos) (raw : List Nat)
    (hm : m ≠ [])
    (hraw : ∀ b ∈ raw, b < 256)
    (hlen : 2 + rowsOf m * rowWidth (colsOf m) ≤ raw.length) :
    ∃ active, switchMatrixState none m raw = some active ∧
      (∀ p, p ∈ active ↔ p ∈ m ∧ (rowWord m raw p.1).testBit p.2) ∧
      (∀ p ∈ m, p.2 < 8 * rowWidth (colsOf m) →
        ((rowWord m raw p.1).testBit p.2 =
          (raw.getD (2 + p.1 * rowWidth (colsOf m) +
            (rowWidth (colsOf m) - 1 - p.2 / 8)) 0).testBit (p.2 % 8))) := by
  refine ⟨m.filter (fun s => (rowWord m raw s.1).testBit s.2), ?_, ?_, ?_⟩
  · rw [switchMatrixState, if_pos hlen]
  · intro p
    simp [List.mem_filter]
  · intro p hp hcol
    have hrow : p.1 + 1 ≤ rowsOf m := by
      have h1 : p.1 ∈ m.map Prod.fst := List.mem_map_of_mem Prod.fst hp
      have := le_foldr_max (m.map Prod.fst) p.1 h1
      rw [rowsOf]
      omega
    have hw1 : 1 ≤ rowWidth (colsOf m) := rowWidth_pos _
    have hdroplen : rowWidth (colsOf m) ≤
        (raw.drop (2 + p.1 * rowWidth (colsOf m))).length := by
      have h3 : p.1 * rowWidth (colsOf m) + rowWidth (colsOf m) ≤
          rowsOf m * rowWidth (colsOf m) := by
        have h4 := Nat.mul_le_mul_right (rowWidth (colsOf m)) hrow
        rwa [Nat.succ_mul] at h4
      rw [List.length_drop]
      omega
    have hslicelen :
        ((raw.drop (2 + p.1 * rowWidth (colsOf m))).take
          (rowWidth (colsOf m))).length = rowWidth (colsOf m) := by
      rw [List.length_take]
      omega
    rw [rowWord]
    rw [testBit_beVal _ p.2 (mem_take_bytes hraw _ _) (by rw [hslicelen]; omega)]
    rw [hslicelen]
    congr 1
    have hkw : rowWidth (colsOf m) - 1 - p.2 / 8 < rowWidth (colsOf m) := by
      omega
    rw [getD_take_byte _ _ _ hkw]
    rw [getD_drop_byte]

/-- C4 witness: a 2-row, 4-column map (width 1) against the concrete frame
`[0xFC, 0x03, 0x01, 0x08, ...]`: row 0 has bit 0 set and row 1 has bit 3. -/
theorem switch_matrix_state_C4_witness :
    ∃ active,
      switchMatrixState none [(0, 0), (1, 3)]
        ([0xFC, 0x03, 0x01, 0x08] ++ List.replicate 28 0) = some active ∧
      (∀ p, p ∈ active ↔ p ∈ [((0 : Nat), (0 : Nat)), (1, 3)] ∧
        (rowWord [(0, 0), (1, 3)]
          ([0xFC, 0x03, 0x01, 0x08] ++ List.replicate 28 0) p.1).testBit
            p.2) ∧
      (∀ p ∈ [((0 : Nat), (0 : Nat)), (1, 3)],
        p.2 < 8 * rowWidth (colsOf [(0, 0), (1, 3)]) →
        ((rowWord [(0, 0), (1, 3)]
            ([0xFC, 0x03, 0x01, 0x08] ++ List.replicate 28 0) p.1).testBit
              p.2 =
          (([0xFC, 0x03, 0x01, 0x08] ++ List.replicate 28 0).getD
            (2 + p.1 * rowWidth (colsOf [(0, 0), (1, 3)]) +
              (rowWidth (colsOf [(0, 0), (1, 3)]) - 1 - p.2 / 8)) 0).testBit
            (p.2 % 8))) :=
  switch_matrix_state_C4 [(0, 0), (1, 3)]
    ([0xFC, 0x03, 0x01, 0x08] ++ List.replicate 28 0)
    (by decide) (by decide) (by decide)

/-! ## Unlock handshake (`unlock`, lines 1028-1079; `set_led_direct_effect`,
lines 905-916)

The device is abstracted by the data `unlock` actually reads: the status
returned by `get_unlock_status()` on entry (`status0`), the one re-read
after `request_unlock()` (`statusReq`), the `in_progress` flags of the
successive `unlock_poll()` calls, and the status read after the polling
loop (`status1`).  The embedding records the state-changing device
operations in order; reads, prints, sleeps and in-memory colour sets have
no device effect and are not recorded.  The polling `while` loop gets
explicit fuel (`none` = still polling after `fuel` polls). -/

/-- One `(unlocked, in_progress)` pair of `get_unlock_status`. -/
structure UnlockStatus where
  unlocked : Bool
  inProgress : Bool
  deriving DecidableEq, Repr

/-- The state-changing operations `unlock` can issue. -/
inductive DeviceOp where
  | setPreset (idx : Nat)
  | setPresetIndex (idx : Nat) (save : Bool)
  | ledWrite
  | requestUnlock
  deriving DecidableEq, Repr

/-- How `unlock` returns: an early return when already unlocked, a normal
return with the success message, a normal return after printing the
"something went wrong" message, or the raised exception when the handshake
is still in progress at the end. -/
inductive UnlockOutcome where
  | alreadyUnlocked
  | unlockedOk
  | wentWrongNormalReturn
  | raisedStillInProgress
  deriving DecidableEq, Repr

/-- Whether an outcome corresponds to `unlock` raising an exception. -/
def raisesException : UnlockOutcome → Bool
  | .raisedStillInProgress => true
  | _ => false

/-- The `while unlock_in_progress` polling loop (lines 1062-1067): keep
polling while the flag is true; `some` when the loop exits within the
fuel. -/
def pollLoop (polls : Nat → Bool) : Bool → Nat → Nat → Option Unit
  | false, _, _ => some ()
  | true, _, 0 => none
  | true, i, fuel + 1 => pollLoop polls (polls i) (i + 1) fuel

/-- `set_led_direct_effect` (lines 905-916): a no-op on the PI500, else
`set_temp_effect`, i.e. `set_preset(7, direct)` then
`set_current_preset_index(7, save_index=False)`. -/
def setLedDirectEffectOps (model : Model) : List DeviceOp :=
  match model with
  | .PI500 => []
  | .PI500PLUS => [.setPreset 7, .setPresetIndex 7 false]

/-- `unlock` (lines 1028-1079), returning the ordered list of state-changing
device operations and the outcome.  `savedIdx` is the saved preset index the
device reports to `revert_to_saved_preset`. -/
def unlockModel (model : Model) (restricted : Bool)
    (status0 statusReq : UnlockStatus) (polls : Nat → Bool) (fuel : Nat)
    (savedIdx : Nat) (status1 : UnlockStatus) :
    Option (List DeviceOp × UnlockOutcome) :=
  let useLeds := (model = Model.PI500PLUS) && !restricted
  let t0 : List DeviceOp := if useLeds then setLedDirectEffectOps model else []
  if status0.unlocked then
    some (t0, .alreadyUnlocked)
  else
    let t1 : List DeviceOp :=
      if !restricted && !status0.inProgress then
        if useLeds then t0 ++ [.ledWrite, .ledWrite] else t0
      else t0
    let t2 := t1 ++ [.requestUnlock]
    match pollLoop polls statusReq.inProgress 0 fuel with
    | none => none
    | some _ =>
      let t3 := if useLeds then t2 ++ [.setPresetIndex savedIdx true] else t2
      if status1.unlocked && !status1.inProgress then
        some (t3, .unlockedOk)
      else if status1.inProgress then
        some (t3, .raisedStillInProgress)
      else
        some (t3, .wentWrongNormalReturn)

/-- C9 counterexample: a PI500 session whose handshake ends with
`unlocked = false` and `in_progress = false` makes `unlock()` print the
failure message and RETURN NORMALLY - no exception is raised - contradicting
the claim that every final state other than unlocked-and-idle raises. -/
theorem unlock_failure_C9_counterexample :
    unlockModel Model.PI500 false ⟨false, false⟩ ⟨false, false⟩
        (fun _ => false) 1 0 ⟨false, false⟩ =
      some ([.requestUnlock], .wentWrongNormalReturn) ∧
    raisesException .wentWrongNormalReturn = false := by
  decide

/-- C9 amended: when `unlock` is entered on a locked device and its polling
loop finishes, it raises if and only if the final status still reports
`in_progress = true`; the inconsistent final state `unlocked = false`,
`in_progress = false` prints a failure message and returns normally. -/
theorem unlock_failure_C9_amended (model : Model) (restricted : Bool)
    (status0 statusReq : UnlockStatus) (polls : Nat → Bool) (fuel : Nat)
    (savedIdx : Nat) (status1 : UnlockStatus) (ops : List DeviceOp)
    (out : UnlockOutcome)
    (hlocked : status0.unlocked = false)
    (hrun : unlockModel model restricted status0 statusReq polls fuel
      savedIdx status1 = some (ops, out)) :
    (raisesException out = true ↔ status1.inProgress = true) ∧
    (out = .wentWrongNormalReturn ↔
      status1.unlocked = false ∧ status1.inProgress = false) := by
  rw [unlockModel] at hrun
  simp only [hlocked, Bool.false_eq_true, if_false] at hrun
  rcases hpoll : pollLoop polls statusReq.inProgress 0 fuel with _ | u
  · rw [hpoll] at hrun
    simp at hrun
  · rw [hpoll] at hrun
    rcases status1 with ⟨u1, ip1⟩
    cases u1 <;> cases ip1 <;> simp at hrun <;>
      obtain ⟨hops, hout⟩ := hrun <;> subst hout <;>
      simp [raisesException]

/-- C9 witness: the successful concrete handshake - final status unlocked
and idle - returns normally (does not raise) and is not the failure
return. -/
theorem unlock_failure_C9_witness :
    (raisesException UnlockOutcome.unlockedOk = true ↔
      (⟨true, false⟩ : UnlockStatus).inProgress = true) ∧
    (UnlockOutcome.unlockedOk = .wentWrongNormalReturn ↔
      (⟨true, false⟩ : UnlockStatus).unlocked = false ∧
      (⟨true, false⟩ : UnlockStatus).inProgress = false) :=
  unlock_failure_C9_amended Model.PI500 false ⟨false, false⟩ ⟨false, false⟩
    (fun _ => false) 1 0 ⟨true, false⟩ [.requestUnlock] .unlockedOk
    rfl (by decide)

/-- C10 counterexample: entering `unlock()` with the device already unlocked
on a PI500PLUS session without restricted mode is NOT a no-op: before the
unlocked check the session issues `set_led_direct_effect`, writing the
transient preset slot 7 and selecting it, so state-changing operations reach
the device. -/
theorem unlock_noop_C10_counterexample :
    unlockModel Model.PI500PLUS false ⟨true, false⟩ ⟨false, false⟩
        (fun _ => false) 1 0 ⟨true, false⟩ =
      some ([.setPreset 7, .setPresetIndex 7 false], .alreadyUnlocked) ∧
    ([.setPreset 7, .setPresetIndex 7 false] : List DeviceOp) ≠ [] := by
  decide

/-- C10 amended: if the device reports unlocked on entry, `unlock` returns
early - no `request_unlock`, no LED write, no preset restore - but on a
PI500PLUS session outside restricted mode it has already written the
transient preset slot (`set_preset 7` and `set_current_preset_index 7`)
before returning; on the PI500 or in restricted mode it performs no device
operation at all. -/
theorem unlock_noop_C10_amended (model : Model) (restricted : Bool)
    (status0 statusReq : UnlockStatus) (polls : Nat → Bool) (fuel : Nat)
    (savedIdx : Nat) (status1 : UnlockStatus)
    (hunlocked : status0.unlocked = true) :
    unlockModel model restricted status0 statusReq polls fuel savedIdx
        status1 =
      some ((if (model = Model.PI500PLUS) && !restricted then
        [.setPreset 7, .setPresetIndex 7 false] else []),
        .alreadyUnlocked) := by
  rw [unlockModel]
  simp only [hunlocked, if_true]
  cases model <;> cases restricted <;> simp [setLedDirectEffectOps]

/-- C10 witness: concrete early returns - the PI500PLUS unrestricted session
has written the transient slot, the restricted one has touched nothing. -/
theorem unlock_noop_C10_witness :
    unlockModel Model.PI500PLUS false ⟨true, true⟩ ⟨false, false⟩
        (fun _ => false) 0 3 ⟨true, false⟩ =
      some ([.setPreset 7, .setPresetIndex 7 false], .alreadyUnlocked) ∧
    unlockModel Model.PI500PLUS true ⟨true, true⟩ ⟨false, false⟩
        (fun _ => false) 0 3 ⟨true, false⟩ =
      some ([], .alreadyUnlocked) := by
  constructor
  · have h := unlock_noop_C10_amended Model.PI500PLUS false ⟨true, true⟩
      ⟨false, false⟩ (fun _ => false) 0 3 ⟨true, false⟩ rfl
    simpa using h
  · have h := unlock_noop_C10_amended Model.PI500PLUS true ⟨true, true⟩
      ⟨false, false⟩ (fun _ => false) 0 3 ⟨true, false⟩ rfl
    simpa using h

end RPiKeyboard
